import Mathlib

/-!
Verification of the `simple_bt` behavior-tree library.

Shallow embedding of the Rust sources:
* `src/lib.rs` — `NodeResult`, `BehaviorNode::tick`, `BehaviorRunner`
* `src/composite/sequence.rs` — `Sequence`, `SequenceResume`
* `src/composite/selector.rs` — `Selector`, `SelectorResume`
* `src/composite/parallel.rs` — `ParallelSequence`, `ParallelSelector`
* `src/composite/repeater.rs` — `Repeated`, `LimitedRepeated`, `RepeatedUntilFailure`
* `src/composite/inverter.rs` — `Inverter`
* `src/composite/succeeder.rs` — `Succeeder`

Rust mutates the blackboard `&mut B`; the embedding threads `B` explicitly:
`tick : Node B → B → NodeResult B × B`.

A Rust leaf node is an arbitrary user value whose `tick(self, &mut B)`
returns a `NodeResult<B>`; it is embedded as a pair of functions: `f`
computes the updated blackboard together with the three-valued status of
the tick, and `k` computes the continuation node used when the status is
`running` (any Rust leaf decomposes this way because its tick is a single
deterministic function of the node value and the blackboard).
-/

namespace SimpleBT

/-- The three-valued tick outcome, without payload (the `Running` payload is
attached in `NodeResult`). -/
inductive Status where
  | success
  | failure
  | running
deriving DecidableEq, Repr

/-- A behavior-tree node value (`dyn BehaviorNode<B>` in the source, closed up
over the node kinds defined by the library plus arbitrary user leaves). -/
inductive Node (B : Type) where
  /-- A user-defined leaf: `f` is its effect and status on a tick, `k` the
  continuation returned when the status is `running`. -/
  | leaf (f : B → B × Status) (k : B → Node B)
  /-- Rust `Sequence { sub }`. -/
  | sequence (sub : List (Node B))
  /-- Rust `SequenceResume { seq, index, resume }`. -/
  | sequenceResume (seq : List (Node B)) (index : Nat) (resume : Node B)
  /-- Rust `Selector { sub }`. -/
  | selector (sub : List (Node B))
  /-- Rust `SelectorResume { seq, index, resume }`. -/
  | selectorResume (seq : List (Node B)) (index : Nat) (resume : Node B)
  /-- Rust `ParallelSequence { sub }`. -/
  | parallelSequence (sub : List (Node B))
  /-- Rust `ParallelSelector { sub }`. -/
  | parallelSelector (sub : List (Node B))
  /-- Rust `Repeated { resume, child }`. -/
  | repeated (resume : Option (Node B)) (child : Node B)
  /-- Rust `LimitedRepeated { child, limit, completed, resume }`. -/
  | limitedRepeated (child : Node B) (limit : Nat) (completed : Nat)
      (resume : Option (Node B))
  /-- Rust `RepeatedUntilFailure { resume, child }`. -/
  | repeatedUntilFailure (resume : Option (Node B)) (child : Node B)
  /-- Rust `Inverter { child }`. -/
  | inverter (child : Node B)
  /-- Rust `Succeeder { child }`. -/
  | succeeder (child : Option (Node B))

/-- The `NodeResult<B>` enum from `src/lib.rs`. -/
inductive NodeResult (B : Type) where
  | running (next : Node B)
  | success
  | failure

/-- Whether a tick result is terminal (`Success` or `Failure`). -/
def NodeResult.isTerminal {B : Type} : NodeResult B → Bool
  | .running _ => false
  | _ => true

theorem sizeOf_list_drop {α : Type} [SizeOf α] (l : List α) (n : Nat) :
    sizeOf (l.drop n) ≤ sizeOf l := by
  induction l generalizing n with
  | nil => cases n <;> simp
  | cons a t ih =>
    cases n with
    | zero => simp
    | succ m =>
      calc sizeOf (List.drop m t) ≤ sizeOf t := ih m
        _ ≤ sizeOf (a :: t) := by
          simp only [List.cons.sizeOf_spec]
          omega

mutual

/-- Embedding of `BehaviorNode::tick` for every node kind of the library, with the
blackboard threaded explicitly. Each arm mirrors the corresponding Rust
`tick` implementation. -/
def tick {B : Type} : Node B → B → NodeResult B × B
  | .leaf f k, b =>
    match f b with
    | (b', .running) => (.running (k b'), b')
    | (b', .success) => (.success, b')
    | (b', .failure) => (.failure, b')
  | .sequence sub, b => seqScan sub sub 0 b
  | .sequenceResume seq index resume, b =>
    -- Tick the node we want to resume on
    match tick resume b with
    | (.success, b') => seqScan seq (seq.drop (index + 1)) (index + 1) b'
    | (.failure, b') => (.failure, b')
    | (.running r, b') => (.running (.sequenceResume seq index r), b')
  | .selector sub, b => selScan sub sub 0 b
  | .selectorResume seq index resume, b =>
    match tick resume b with
    | (.failure, b') => selScan seq (seq.drop (index + 1)) (index + 1) b'
    | (.success, b') => (.success, b')
    | (.running r, b') => (.running (.selectorResume seq index r), b')
  | .parallelSequence sub, b =>
    match parSeqGo sub b with
    | (.inl b') => (.failure, b')
    | (.inr (children, b')) =>
      if children.isEmpty then (.success, b')
      else (.running (.parallelSequence children), b')
  | .parallelSelector sub, b =>
    match parSelGo sub b with
    | (.inl b') => (.success, b')
    | (.inr (children, b')) =>
      if children.isEmpty then (.failure, b')
      else (.running (.parallelSelector children), b')
  | .repeated (some r) child, b =>
    match tick r b with
    | (.running r', b') => (.running (.repeated (some r') child), b')
    | (_, b') =>
      match tick child b' with
      | (.running r', b'') => (.running (.repeated (some r') child), b'')
      | (_, b'') => (.running (.repeated none child), b'')
  | .repeated none child, b =>
    match tick child b with
    | (.running r', b') => (.running (.repeated (some r') child), b')
    | (_, b') => (.running (.repeated none child), b')
  | .limitedRepeated child limit completed (some r), b =>
    if completed ≥ limit then (.success, b)
    else
      match tick r b with
      | (.running r', b') =>
        (.running (.limitedRepeated child limit completed (some r')), b')
      | (_, b') =>
        match tick child b' with
        | (.running r', b'') =>
          (.running (.limitedRepeated child limit (completed + 1) (some r')), b'')
        | (_, b'') =>
          (.running (.limitedRepeated child limit (completed + 2) none), b'')
  | .limitedRepeated child limit completed none, b =>
    if completed ≥ limit then (.success, b)
    else
      match tick child b with
      | (.running r', b') =>
        (.running (.limitedRepeated child limit completed (some r')), b')
      | (_, b') =>
        (.running (.limitedRepeated child limit (completed + 1) none), b')
  | .repeatedUntilFailure (some r) child, b =>
    match tick r b with
    | (.running r', b') => (.running (.repeatedUntilFailure (some r') child), b')
    | (.failure, b') => (.success, b')
    | (.success, b') =>
      match tick child b' with
      | (.running r', b'') => (.running (.repeatedUntilFailure (some r') child), b'')
      | (.success, b'') => (.running (.repeatedUntilFailure none child), b'')
      | (.failure, b'') => (.success, b'')
  | .repeatedUntilFailure none child, b =>
    match tick child b with
    | (.running r', b') => (.running (.repeatedUntilFailure (some r') child), b')
    | (.success, b') => (.running (.repeatedUntilFailure none child), b')
    | (.failure, b') => (.success, b')
  | .inverter child, b =>
    match tick child b with
    | (.success, b') => (.failure, b')
    | (.failure, b') => (.success, b')
    | (.running r, b') => (.running (.inverter r), b')
  | .succeeder (some child), b =>
    match tick child b with
    | (.running r, b') => (.running (.succeeder (some r)), b')
    | (_, b') => (.success, b')
  | .succeeder none, b => (.success, b)
termination_by n _ => sizeOf n
decreasing_by
  all_goals simp_wf
  all_goals try omega
  all_goals (have h := sizeOf_list_drop seq (index + 1); omega)

/-- The `for (idx, sub) in ...enumerate()` loop of `Sequence::tick` and the
trailing loop of `SequenceResume::tick` (`all` is the full child list used to
build resumption nodes, `rem` the children left to scan, `idx` the index of
the head of `rem`). -/
def seqScan {B : Type} (all : List (Node B)) :
    List (Node B) → Nat → B → NodeResult B × B
  | [], _, b => (.success, b)
  | c :: rest, idx, b =>
    match tick c b with
    | (.success, b') => seqScan all rest (idx + 1) b'
    | (.failure, b') => (.failure, b')
    | (.running r, b') => (.running (.sequenceResume all idx r), b')
termination_by rem _ _ => sizeOf rem
decreasing_by
  all_goals simp_wf
  all_goals omega

/-- The scanning loop of `Selector::tick` / `SelectorResume::tick`. -/
def selScan {B : Type} (all : List (Node B)) :
    List (Node B) → Nat → B → NodeResult B × B
  | [], _, b => (.failure, b)
  | c :: rest, idx, b =>
    match tick c b with
    | (.failure, b') => selScan all rest (idx + 1) b'
    | (.success, b') => (.success, b')
    | (.running r, b') => (.running (.selectorResume all idx r), b')
termination_by rem _ _ => sizeOf rem
decreasing_by
  all_goals simp_wf
  all_goals omega

/-- The child loop of `ParallelSequence::tick`: `.inl b` is an early `Failure`
return, `.inr (new_children, b)` a completed loop with the still-running
continuations collected in order. -/
def parSeqGo {B : Type} : List (Node B) → B → B ⊕ (List (Node B) × B)
  | [], b => .inr ([], b)
  | c :: rest, b =>
    match tick c b with
    | (.failure, b') => .inl b'
    | (.success, b') => parSeqGo rest b'
    | (.running r, b') =>
      match parSeqGo rest b' with
      | .inl b'' => .inl b''
      | .inr (children, b'') => .inr (r :: children, b'')
termination_by rem _ => sizeOf rem
decreasing_by
  all_goals simp_wf
  all_goals omega

/-- The child loop of `ParallelSelector::tick`: `.inl b` is an early `Success`
return. -/
def parSelGo {B : Type} : List (Node B) → B → B ⊕ (List (Node B) × B)
  | [], b => .inr ([], b)
  | c :: rest, b =>
    match tick c b with
    | (.success, b') => .inl b'
    | (.failure, b') => parSelGo rest b'
    | (.running r, b') =>
      match parSelGo rest b' with
      | .inl b'' => .inl b''
      | .inr (children, b'') => .inr (r :: children, b'')
termination_by rem _ => sizeOf rem
decreasing_by
  all_goals simp_wf
  all_goals omega

end

/-! Instrumented (traced) variants of the composite loops. They recompute the
same child ticks as `tick` (proved by the erasure lemmas below) while also
recording which children were ticked and with which outcome, so that claims
about "which child is ever ticked" can be stated. -/

/-- Observed outcome of a single child tick, as recorded in a trace. -/
inductive Outc (B : Type) where
  | success
  | failure
  | running (next : Node B)

/-- Whether a recorded child outcome is `Failure`. -/
def Outc.isFailure {B : Type} : Outc B → Bool
  | .failure => true
  | _ => false

/-- The continuation recorded in a `running` outcome, if any. -/
def Outc.contOf {B : Type} : Outc B → Option (Node B)
  | .running c => some c
  | _ => none

/-- A sequence-execution trace: the (child index, outcome) of every child tick
performed, in order. -/
abbrev STrace (B : Type) := List (Nat × Outc B)

/-- Every recorded child index is at least `i`. -/
def entriesGE {B : Type} (i : Nat) (tr : STrace B) : Prop := ∀ e ∈ tr, i ≤ e.1

/-- Every recorded child index is at most `i`. -/
def entriesLE {B : Type} (i : Nat) (tr : STrace B) : Prop := ∀ e ∈ tr, e.1 ≤ i

/-- The recorded child indices are nondecreasing along the trace. -/
def IdxSorted {B : Type} (tr : STrace B) : Prop :=
  tr.Pairwise (fun a b => a.1 ≤ b.1)

/-- No recorded child tick reported `Failure`. -/
def NoFail {B : Type} (tr : STrace B) : Prop :=
  ∀ e ∈ tr, e.2.isFailure = false

/-- Relation between a child-tick trace and an overall outcome: the overall
outcome is `Failure` exactly when the trace ends in a child `Failure`, that
failure is the only one recorded, its index is maximal in the trace, and no
child tick at all follows it; with any other outcome no child `Failure` is
recorded anywhere. -/
def FailTail {B : Type} (tr : STrace B) (res : Option Bool) : Prop :=
  match res with
  | some false =>
    ∃ t j, tr = t ++ [(j, Outc.failure)] ∧ NoFail t ∧ entriesLE j tr
  | _ => NoFail tr

/-- Structured result of one sequence-level tick: like `NodeResult` but with
the `SequenceResume` continuation kept in destructured form. -/
inductive SeqRes (B : Type) where
  | success (b : B)
  | failure (b : B)
  | running (index : Nat) (cont : Node B) (b : B)

/-- Rebuild the `NodeResult` of a sequence-level tick from its structured
form (`all` is the full child list of the sequence). -/
def SeqRes.toNR {B : Type} (all : List (Node B)) : SeqRes B → NodeResult B × B
  | .success b => (.success, b)
  | .failure b => (.failure, b)
  | .running idx c b => (.running (.sequenceResume all idx c), b)

/-- Traced version of `seqScan`: scan children from index `idx`, recording
each child tick. -/
def seqScanT {B : Type} : List (Node B) → Nat → B → STrace B × SeqRes B
  | [], _, b => ([], .success b)
  | c :: rest, idx, b =>
    match tick c b with
    | (.success, b') =>
      let (t, r) := seqScanT rest (idx + 1) b'
      ((idx, .success) :: t, r)
    | (.failure, b') => ([(idx, .failure)], .failure b')
    | (.running rc, b') => ([(idx, .running rc)], .running idx rc b')

/-- Traced version of `SequenceResume::tick`: tick the stored continuation at
the anchor `index`, then on its `Success` scan the children after `index`. -/
def seqResumeT {B : Type} (all : List (Node B)) (index : Nat) (resume : Node B)
    (b : B) : STrace B × SeqRes B :=
  match tick resume b with
  | (.success, b') =>
    let (t, r) := seqScanT (all.drop (index + 1)) (index + 1) b'
    ((index, .success) :: t, r)
  | (.failure, b') => ([(index, .failure)], .failure b')
  | (.running rc, b') => ([(index, .running rc)], .running index rc b')

/-- A multi-tick execution of one `Sequence`: state `none` is the fresh
sequence, `some (idx, rc)` a `SequenceResume` anchored at `idx` holding `rc`.
One element of `bs` is consumed per external tick (the caller may present an
arbitrary context at each tick, which subsumes the threaded trajectory).
Returns the concatenated child-tick trace and the overall outcome (`none`
when the context stream ends while still running). -/
def seqExecT {B : Type} (all : List (Node B)) :
    Option (Nat × Node B) → List B → STrace B × Option Bool
  | _, [] => ([], none)
  | st, b :: bs =>
    match (match st with
           | none => seqScanT all 0 b
           | some (idx, rc) => seqResumeT all idx rc b) with
    | (t, .success _) => (t, some true)
    | (t, .failure _) => (t, some false)
    | (t, .running idx rc _) =>
      let (t', res) := seqExecT all (some (idx, rc)) bs
      (t ++ t', res)

/-- Traced version of `parSeqGo` (the `ParallelSequence::tick` loop):
records the outcome of each ticked child of the current working set in
order; the position in the trace is the position in the working set. -/
def parSeqGoT {B : Type} :
    List (Node B) → B → List (Outc B) × (B ⊕ (List (Node B) × B))
  | [], b => ([], .inr ([], b))
  | c :: rest, b =>
    match tick c b with
    | (.failure, b') => ([.failure], .inl b')
    | (.success, b') =>
      let (t, o) := parSeqGoT rest b'
      (.success :: t, o)
    | (.running r, b') =>
      let (t, o) := parSeqGoT rest b'
      (.running r :: t,
        match o with
        | .inl b'' => .inl b''
        | .inr (children, b'') => .inr (r :: children, b''))

/-- Structured result of one `LimitedRepeated` tick: like `NodeResult` but
with the `LimitedRepeated` continuation kept in destructured form. -/
inductive LRRes (B : Type) where
  | running (completed : Nat) (resume : Option (Node B)) (b : B)
  | success (b : B)
  | failure (b : B)

/-- Rebuild the `NodeResult` of a `LimitedRepeated` tick from its structured
form. -/
def LRRes.toNR {B : Type} (child : Node B) (limit : Nat) :
    LRRes B → NodeResult B × B
  | .running c r b => (.running (.limitedRepeated child limit c r), b)
  | .success b => (.success, b)
  | .failure b => (.failure, b)

/-- Traced version of `LimitedRepeated::tick`, additionally counting the
child ticks performed this call and the child iterations that terminated
(by `Success` or `Failure`, counted identically) this call. -/
def lrTickT {B : Type} (child : Node B) (limit completed : Nat)
    (resume : Option (Node B)) (b : B) : Nat × Nat × LRRes B :=
  if completed ≥ limit then (0, 0, .success b)
  else
    match resume with
    | some r =>
      match tick r b with
      | (.running r', b') => (1, 0, .running completed (some r') b')
      | (_, b') =>
        match tick child b' with
        | (.running r', b'') => (2, 1, .running (completed + 1) (some r') b'')
        | (_, b'') => (2, 2, .running (completed + 2) none b'')
    | none =>
      match tick child b with
      | (.running r', b') => (1, 0, .running completed (some r') b')
      | (_, b') => (1, 1, .running (completed + 1) none b')

/-- A multi-tick execution of one `LimitedRepeated` with a fixed `child` and
`limit`: the state is the pair (completed counter, resumption slot); one
element of `bs` is consumed per external tick. Returns the total number of
child-iteration terminations and the overall outcome. -/
def lrExecT {B : Type} (child : Node B) (limit : Nat) :
    Nat × Option (Node B) → List B → Nat × Option Bool
  | _, [] => (0, none)
  | (completed, resume), b :: bs =>
    match lrTickT child limit completed resume b with
    | (_, terms, .running c' r' _) =>
      let (n, res) := lrExecT child limit (c', r') bs
      (terms + n, res)
    | (_, terms, .success _) => (terms, some true)
    | (_, terms, .failure _) => (terms, some false)

/-- Structured result of one `RepeatedUntilFailure` tick. -/
inductive RUFRes (B : Type) where
  | running (resume : Option (Node B)) (b : B)
  | success (b : B)
  | failure (b : B)

/-- Rebuild the `NodeResult` of a `RepeatedUntilFailure` tick from its
structured form. -/
def RUFRes.toNR {B : Type} (child : Node B) : RUFRes B → NodeResult B × B
  | .running r b => (.running (.repeatedUntilFailure r child), b)
  | .success b => (.success, b)
  | .failure b => (.failure, b)

/-- Traced version of `RepeatedUntilFailure::tick`: records the status of
each child tick performed this call, in order. -/
def rufTickT {B : Type} (child : Node B) (resume : Option (Node B)) (b : B) :
    List Status × RUFRes B :=
  match resume with
  | some r =>
    match tick r b with
    | (.running r', b') => ([.running], .running (some r') b')
    | (.failure, b') => ([.failure], .success b')
    | (.success, b') =>
      match tick child b' with
      | (.running r', b'') => ([.success, .running], .running (some r') b'')
      | (.success, b'') => ([.success, .success], .running none b'')
      | (.failure, b'') => ([.success, .failure], .success b'')
  | none =>
    match tick child b with
    | (.running r', b') => ([.running], .running (some r') b')
    | (.success, b') => ([.success], .running none b')
    | (.failure, b') => ([.failure], .success b')

/-- Number of `Failure` statuses in a list of child-tick statuses. -/
def countFails : List Status → Nat
  | [] => 0
  | .failure :: t => countFails t + 1
  | _ :: t => countFails t

/-- A multi-tick execution of one `RepeatedUntilFailure` with a fixed
`child`: the state is the resumption slot; one element of `bs` is consumed
per external tick. Returns the number of child `Failure` reports and the
overall outcome. -/
def rufExecT {B : Type} (child : Node B) :
    Option (Node B) → List B → Nat × Option Bool
  | _, [] => (0, none)
  | resume, b :: bs =>
    match rufTickT child resume b with
    | (t, .running r' _) =>
      let (n, res) := rufExecT child r' bs
      (countFails t + n, res)
    | (t, .success _) => (countFails t, some true)
    | (t, .failure _) => (countFails t, some false)

/-- The `BehaviorRunner<B>` struct from `src/lib.rs`. -/
structure BehaviorRunner (B : Type) where
  tree : Node B
  currentTick : Option (Node B)

/-- `BehaviorRunner::new`. -/
def BehaviorRunner.new {B : Type} (tree : Node B) : BehaviorRunner B :=
  ⟨tree, none⟩

/-- `BehaviorRunner::is_running`. -/
def BehaviorRunner.isRunning {B : Type} (r : BehaviorRunner B) : Bool :=
  r.currentTick.isSome

/-- `BehaviorRunner::tick_node` (callers have already emptied the slot via
`take`, so `r.currentTick = none` at entry). -/
def BehaviorRunner.tickNode {B : Type} (r : BehaviorRunner B) (node : Node B)
    (b : B) : Option Bool × BehaviorRunner B × B :=
  match tick node b with
  | (.running nbp, b') => (none, { r with currentTick := some nbp }, b')
  | (.success, b') => (some true, r, b')
  | (.failure, b') => (some false, r, b')

/-- `BehaviorRunner::proceed`: tick the stored resumption node when the slot
is occupied (taking it out first), else the root. -/
def BehaviorRunner.proceed {B : Type} (r : BehaviorRunner B) (b : B) :
    Option Bool × BehaviorRunner B × B :=
  match r.currentTick with
  | some bp => BehaviorRunner.tickNode { r with currentTick := none } bp b
  | none => BehaviorRunner.tickNode { r with currentTick := none } r.tree b

/-! Concrete test fixtures used by witnesses and counterexamples. -/

/-- A leaf that always succeeds immediately, leaving the context unchanged. -/
def leafSucc : Node Nat := .leaf (fun b => (b, .success)) (fun _ => .sequence [])

/-- A leaf that always fails immediately, leaving the context unchanged. -/
def leafFail : Node Nat := .leaf (fun b => (b, .failure)) (fun _ => .sequence [])

/-- A leaf that reports `Running` when the context is `0` (setting it to `1`)
and otherwise terminates with `Success`; its continuation is `leafSucc`. -/
def stepThenSucc : Node Nat :=
  .leaf (fun b => if b = 0 then (1, .running) else (b, .success))
    (fun _ => leafSucc)

/-- A leaf that reports `Running` when the context is `0` (setting it to `1`)
and otherwise terminates with `Failure`; its continuation is `leafSucc`. -/
def stepThenFail : Node Nat :=
  .leaf (fun b => if b = 0 then (1, .running) else (b, .failure))
    (fun _ => leafSucc)

/-- A leaf over a log context that pushes `1` and succeeds immediately. -/
def pushOne : Node (List Nat) :=
  .leaf (fun l => (l ++ [1], .success)) (fun _ => .sequence [])

/-- The tree of end-to-end scenario C: `LimitedRepeated::new(3, pushOne)`. -/
def c6Tree : Node (List Nat) := .limitedRepeated pushOne 3 0 none

/-- First `proceed` call of scenario C, on an empty log. -/
def c6Step1 : Option Bool × BehaviorRunner (List Nat) × List Nat :=
  (BehaviorRunner.new c6Tree).proceed []

/-- Second `proceed` call of scenario C. -/
def c6Step2 : Option Bool × BehaviorRunner (List Nat) × List Nat :=
  c6Step1.2.1.proceed c6Step1.2.2

/-- Third `proceed` call of scenario C. -/
def c6Step3 : Option Bool × BehaviorRunner (List Nat) × List Nat :=
  c6Step2.2.1.proceed c6Step2.2.2

/-- Fourth `proceed` call of scenario C. -/
def c6Step4 : Option Bool × BehaviorRunner (List Nat) × List Nat :=
  c6Step3.2.1.proceed c6Step3.2.2

/-! Erasure lemmas: dropping the instrumentation from a traced loop yields
exactly the corresponding arm of `tick`. -/

/-- The traced sequence scan computes the same result as `seqScan`. -/
theorem seqScan_eq_seqScanT {B : Type} (all rem : List (Node B)) (idx : Nat)
    (b : B) : seqScan all rem idx b = ((seqScanT rem idx b).2).toNR all := by
  induction rem generalizing idx b with
  | nil => simp [seqScan, seqScanT, SeqRes.toNR]
  | cons c rest ih =>
    cases h : tick c b with
    | mk res b' => cases res <;> simp [seqScan, seqScanT, h, SeqRes.toNR, ih]

/-- Ticking a fresh `Sequence` is the traced scan of all children from 0. -/
theorem tick_sequence {B : Type} (sub : List (Node B)) (b : B) :
    tick (.sequence sub) b = ((seqScanT sub 0 b).2).toNR sub := by
  simp [tick, seqScan_eq_seqScanT]

/-- Ticking a `SequenceResume` is the traced resumption tick. -/
theorem tick_sequenceResume {B : Type} (all : List (Node B)) (index : Nat)
    (resume : Node B) (b : B) :
    tick (.sequenceResume all index resume) b
      = ((seqResumeT all index resume b).2).toNR all := by
  cases h : tick resume b with
  | mk res b' =>
    cases res <;> simp [tick, seqResumeT, h, SeqRes.toNR, seqScan_eq_seqScanT]

/-- The traced parallel-sequence loop computes the same result as
`parSeqGo`. -/
theorem parSeqGo_eq_parSeqGoT {B : Type} (rem : List (Node B)) (b : B) :
    parSeqGo rem b = (parSeqGoT rem b).2 := by
  induction rem generalizing b with
  | nil => simp [parSeqGo, parSeqGoT]
  | cons c rest ih =>
    cases h : tick c b with
    | mk res b' =>
      cases res <;> simp [parSeqGo, parSeqGoT, h, ih]

/-- Ticking a `LimitedRepeated` is the traced `lrTickT`. -/
theorem tick_limitedRepeated {B : Type} (child : Node B)
    (limit completed : Nat) (resume : Option (Node B)) (b : B) :
    tick (.limitedRepeated child limit completed resume) b
      = ((lrTickT child limit completed resume b).2.2).toNR child limit := by
  cases resume with
  | none =>
    by_cases hl : completed ≥ limit
    · simp [tick, lrTickT, hl, LRRes.toNR]
    · cases h : tick child b with
      | mk res b' =>
        cases res <;> simp [tick, lrTickT, hl, h, LRRes.toNR]
  | some r =>
    by_cases hl : completed ≥ limit
    · simp [tick, lrTickT, hl, LRRes.toNR]
    · cases h : tick r b with
      | mk res b' =>
        cases res with
        | running r' => simp [tick, lrTickT, hl, h, LRRes.toNR]
        | success =>
          cases h2 : tick child b' with
          | mk res2 b'' =>
            cases res2 <;> simp [tick, lrTickT, hl, h, h2, LRRes.toNR]
        | failure =>
          cases h2 : tick child b' with
          | mk res2 b'' =>
            cases res2 <;> simp [tick, lrTickT, hl, h, h2, LRRes.toNR]

/-- Ticking a `RepeatedUntilFailure` is the traced `rufTickT`. -/
theorem tick_repeatedUntilFailure {B : Type} (child : Node B)
    (resume : Option (Node B)) (b : B) :
    tick (.repeatedUntilFailure resume child) b
      = ((rufTickT child resume b).2).toNR child := by
  cases resume with
  | none =>
    cases h : tick child b with
    | mk res b' => cases res <;> simp [tick, rufTickT, h, RUFRes.toNR]
  | some r =>
    cases h : tick r b with
    | mk res b' =>
      cases res with
      | running r' => simp [tick, rufTickT, h, RUFRes.toNR]
      | success =>
        cases h2 : tick child b' with
        | mk res2 b'' =>
          cases res2 <;> simp [tick, rufTickT, h, h2, RUFRes.toNR]
      | failure => simp [tick, rufTickT, h, RUFRes.toNR]


/-- Structure of a traced fresh scan from index `idx`: indices start at `idx`
and are nondecreasing; a recorded `Failure` can only be the final entry and
forces a `Failure` result; a `Running` result is anchored at the maximal
recorded index. -/
theorem seqScanT_spec {B : Type} (rem : List (Node B)) (idx : Nat) (b : B) :
    entriesGE idx (seqScanT rem idx b).1 ∧ IdxSorted (seqScanT rem idx b).1 ∧
    (match (seqScanT rem idx b).2 with
     | .success _ => NoFail (seqScanT rem idx b).1
     | .failure _ =>
       ∃ t j, (seqScanT rem idx b).1 = t ++ [(j, Outc.failure)] ∧ NoFail t ∧
         entriesLE j (seqScanT rem idx b).1
     | .running j _ _ =>
       NoFail (seqScanT rem idx b).1 ∧ entriesLE j (seqScanT rem idx b).1 ∧
         ∃ t c, (seqScanT rem idx b).1 = t ++ [(j, Outc.running c)]) := by
  induction rem generalizing idx b with
  | nil =>
    simp [seqScanT, entriesGE, IdxSorted, NoFail]
  | cons c rest ih =>
    cases h : tick c b with
    | mk res b' =>
      cases res with
      | success =>
        obtain ⟨ihGE, ihSort, ihM⟩ := ih (idx + 1) b'
        simp only [seqScanT, h]
        constructor
        · intro e he
          simp only [List.mem_cons] at he
          rcases he with rfl | he
          · exact le_refl idx
          · exact le_trans (Nat.le_succ idx) (ihGE e he)
        constructor
        · refine List.Pairwise.cons ?_ ihSort
          intro e he
          exact le_trans (Nat.le_succ idx) (ihGE e he)
        · cases hr : (seqScanT rest (idx + 1) b').2 with
          | success bf =>
            rw [hr] at ihM
            simp only []
            intro e he
            simp only [List.mem_cons] at he
            rcases he with rfl | he
            · rfl
            · exact ihM e he
          | failure bf =>
            rw [hr] at ihM
            obtain ⟨t, j, hdec, hnf, hle⟩ := ihM
            refine ⟨(idx, Outc.success) :: t, j, by simp [hdec], ?_, ?_⟩
            · intro e he
              simp only [List.mem_cons] at he
              rcases he with rfl | he
              · rfl
              · exact hnf e he
            · intro e he
              simp only [List.mem_cons] at he
              rcases he with rfl | he
              · have : idx + 1 ≤ j := by
                  have : (j, Outc.failure) ∈ (seqScanT rest (idx+1) b').1 := by
                    rw [hdec]; simp
                  exact ihGE _ this
                omega
              · exact hle e he
          | running j cn bf =>
            rw [hr] at ihM
            obtain ⟨hnf, hle, t, cc, hdec⟩ := ihM
            refine ⟨?_, ?_, (idx, Outc.success) :: t, cc, by simp [hdec]⟩
            · intro e he
              simp only [List.mem_cons] at he
              rcases he with rfl | he
              · rfl
              · exact hnf e he
            · intro e he
              simp only [List.mem_cons] at he
              rcases he with rfl | he
              · have : idx + 1 ≤ j := by
                  have : (j, Outc.running cc) ∈ (seqScanT rest (idx+1) b').1 := by
                    rw [hdec]; simp
                  exact ihGE _ this
                omega
              · exact hle e he
      | failure =>
        simp [seqScanT, h, entriesGE, IdxSorted, NoFail, entriesLE]
        exact ⟨[], idx, by simp, by simp [NoFail], by simp [entriesLE]⟩
      | running rc =>
        simp [seqScanT, h, entriesGE, IdxSorted, NoFail, entriesLE, Outc.isFailure]
        exact ⟨[], rc, by simp⟩

/-- Structure of a traced resumption tick: the first recorded child tick is
the stored continuation at the anchor, all later ones have strictly larger
indices; failure and running results are shaped as in `seqScanT_spec`. -/
theorem seqResumeT_spec {B : Type} (all : List (Node B)) (index : Nat)
    (resume : Node B) (b : B) :
    (∃ o t', (seqResumeT all index resume b).1 = (index, o) :: t' ∧
       entriesGE (index + 1) t') ∧
    IdxSorted (seqResumeT all index resume b).1 ∧
    (match (seqResumeT all index resume b).2 with
     | .success _ => NoFail (seqResumeT all index resume b).1
     | .failure _ =>
       ∃ t j, (seqResumeT all index resume b).1 = t ++ [(j, Outc.failure)] ∧
         NoFail t ∧ entriesLE j (seqResumeT all index resume b).1
     | .running j _ _ =>
       NoFail (seqResumeT all index resume b).1 ∧
         entriesLE j (seqResumeT all index resume b).1 ∧
         ∃ t c, (seqResumeT all index resume b).1 = t ++ [(j, Outc.running c)]) := by
  cases h : tick resume b with
  | mk res b' =>
    cases res with
    | success =>
      obtain ⟨sGE, sSort, sM⟩ := seqScanT_spec (all.drop (index + 1)) (index + 1) b'
      simp only [seqResumeT, h]
      refine ⟨⟨Outc.success, _, rfl, sGE⟩, ?_, ?_⟩
      · refine List.Pairwise.cons ?_ sSort
        intro e he
        exact le_trans (Nat.le_succ index) (sGE e he)
      · cases hr : (seqScanT (all.drop (index + 1)) (index + 1) b').2 with
        | success bf =>
          rw [hr] at sM
          intro e he
          simp only [List.mem_cons] at he
          rcases he with rfl | he
          · rfl
          · exact sM e he
        | failure bf =>
          rw [hr] at sM
          obtain ⟨t, j, hdec, hnf, hle⟩ := sM
          refine ⟨(index, Outc.success) :: t, j, by simp [hdec], ?_, ?_⟩
          · intro e he
            simp only [List.mem_cons] at he
            rcases he with rfl | he
            · rfl
            · exact hnf e he
          · intro e he
            simp only [List.mem_cons] at he
            rcases he with rfl | he
            · have : index + 1 ≤ j := by
                have : (j, Outc.failure) ∈ (seqScanT (all.drop (index+1)) (index+1) b').1 := by
                  rw [hdec]; simp
                exact sGE _ this
              omega
            · exact hle e he
        | running j cn bf =>
          rw [hr] at sM
          obtain ⟨hnf, hle, t, cc, hdec⟩ := sM
          refine ⟨?_, ?_, (index, Outc.success) :: t, cc, by simp [hdec]⟩
          · intro e he
            simp only [List.mem_cons] at he
            rcases he with rfl | he
            · rfl
            · exact hnf e he
          · intro e he
            simp only [List.mem_cons] at he
            rcases he with rfl | he
            · have : index + 1 ≤ j := by
                have : (j, Outc.running cc) ∈ (seqScanT (all.drop (index+1)) (index+1) b').1 := by
                  rw [hdec]; simp
                exact sGE _ this
              omega
            · exact hle e he
    | failure =>
      simp only [seqResumeT, h]
      refine ⟨⟨Outc.failure, [], rfl, by simp [entriesGE]⟩, ?_, ?_⟩
      · simp [IdxSorted]
      · exact ⟨[], index, by simp, by simp [NoFail], by simp [entriesLE]⟩
    | running rc =>
      simp only [seqResumeT, h]
      refine ⟨⟨Outc.running rc, [], rfl, by simp [entriesGE]⟩, ?_, ?_⟩
      · simp [IdxSorted]
      · exact ⟨by simp [NoFail, Outc.isFailure], by simp [entriesLE],
          [], rc, by simp⟩

/-- Concatenating the trace of one tick with the trace of the rest of an
execution anchored at `j` preserves sortedness and the failure-tail shape. -/
theorem seqExecT_combine {B : Type} (t t' : STrace B) (res' : Option Bool)
    (j : Nat) (hSortT : IdxSorted t) (hSortT' : IdxSorted t')
    (hNF : NoFail t) (hLE : entriesLE j t) (hGE' : entriesGE j t')
    (hFT' : FailTail t' res') :
    IdxSorted (t ++ t') ∧ FailTail (t ++ t') res' := by
  constructor
  · rw [IdxSorted, List.pairwise_append]
    refine ⟨hSortT, hSortT', ?_⟩
    intro a ha b hb
    exact le_trans (hLE a ha) (hGE' b hb)
  · cases res' with
    | none =>
      intro e he
      rcases List.mem_append.mp he with h1 | h2
      · exact hNF e h1
      · exact hFT' e h2
    | some v =>
      cases v with
      | true =>
        intro e he
        rcases List.mem_append.mp he with h1 | h2
        · exact hNF e h1
        · exact hFT' e h2
      | false =>
        obtain ⟨t₀, j', hdec, hnf₀, hle'⟩ := hFT'
        refine ⟨t ++ t₀, j', by rw [hdec, List.append_assoc], ?_, ?_⟩
        · intro e he
          rcases List.mem_append.mp he with h1 | h2
          · exact hNF e h1
          · exact hnf₀ e h2
        · have hjj' : j ≤ j' := by
            have : (j', Outc.failure) ∈ t' := by rw [hdec]; simp
            exact hGE' _ this
          intro e he
          rcases List.mem_append.mp he with h1 | h2
          · exact le_trans (le_trans (hLE e h1) hjj') (le_refl j')
          · exact hle' e h2

/-- Execution of a sequence from a resumption state anchored at `i`: all
recorded indices are at least `i` and nondecreasing, and a recorded failure
is final, unique, maximal and forces the `some false` outcome. -/
theorem seqExecT_resume_spec {B : Type} (all : List (Node B)) :
    ∀ (bs : List B) (i : Nat) (rc : Node B),
      entriesGE i (seqExecT all (some (i, rc)) bs).1 ∧
      IdxSorted (seqExecT all (some (i, rc)) bs).1 ∧
      FailTail (seqExecT all (some (i, rc)) bs).1
        (seqExecT all (some (i, rc)) bs).2 := by
  intro bs
  induction bs with
  | nil =>
    intro i rc
    simp [seqExecT, entriesGE, IdxSorted, FailTail, NoFail]
  | cons b bs ih =>
    intro i rc
    obtain ⟨⟨o, tl, hdec, hGEtl⟩, hSort, hM⟩ := seqResumeT_spec all i rc b
    have hGEt : entriesGE i (seqResumeT all i rc b).1 := by
      rw [hdec]
      intro e he
      simp only [List.mem_cons] at he
      rcases he with rfl | he
      · exact le_refl i
      · exact le_trans (Nat.le_succ i) (hGEtl e he)
    cases hstep : seqResumeT all i rc b with
    | mk t r =>
      rw [hstep] at hGEt hSort hM
      cases r with
      | success bf =>
        rw [hstep] at hdec
        simp only [seqExecT, hstep]
        exact ⟨hGEt, hSort, hM⟩
      | failure bf =>
        simp only [seqExecT, hstep]
        exact ⟨hGEt, hSort, hM⟩
      | running j cn bf =>
        obtain ⟨hNF, hLE, t₀, cc, hdect⟩ := hM
        have hdect' : t = t₀ ++ [(j, Outc.running cc)] := hdect
        obtain ⟨ihGE, ihSort, ihFT⟩ := ih j cn
        have hij : i ≤ j := by
          have : (j, Outc.running cc) ∈ t := by rw [hdect']; simp
          exact hGEt _ this
        have hcomb := seqExecT_combine t (seqExecT all (some (j, cn)) bs).1
          (seqExecT all (some (j, cn)) bs).2 j hSort ihSort hNF hLE ihGE ihFT
        simp only [seqExecT, hstep]
        refine ⟨?_, hcomb.1, hcomb.2⟩
        intro e he
        rcases List.mem_append.mp he with h1 | h2
        · exact hGEt e h1
        · exact le_trans hij (ihGE e h2)

/-- Execution of a sequence from the fresh state: the recorded indices are
nondecreasing, and a recorded failure is final, unique, maximal and forces
the `some false` outcome. -/
theorem seqExecT_spec {B : Type} (all : List (Node B)) (bs : List B) :
    IdxSorted (seqExecT all none bs).1 ∧
    FailTail (seqExecT all none bs).1 (seqExecT all none bs).2 := by
  cases bs with
  | nil => simp [seqExecT, IdxSorted, FailTail, NoFail]
  | cons b bs =>
    obtain ⟨sGE, sSort, sM⟩ := seqScanT_spec all 0 b
    cases hstep : seqScanT all 0 b with
    | mk t r =>
      rw [hstep] at sGE sSort sM
      cases r with
      | success bf => simp only [seqExecT, hstep]; exact ⟨sSort, sM⟩
      | failure bf => simp only [seqExecT, hstep]; exact ⟨sSort, sM⟩
      | running j cn bf =>
        obtain ⟨hNF, hLE, t₀, cc, hdect⟩ := sM
        obtain ⟨ihGE, ihSort, ihFT⟩ := seqExecT_resume_spec all bs j cn
        have hcomb := seqExecT_combine t (seqExecT all (some (j, cn)) bs).1
          (seqExecT all (some (j, cn)) bs).2 j sSort ihSort hNF hLE ihGE ihFT
        simp only [seqExecT, hstep]
        exact hcomb

/-- The element returned by `List.find?` satisfies the predicate. -/
theorem find?_pred {α : Type} {p : α → Bool} {l : List α} {a : α}
    (h : l.find? p = some a) : p a = true :=
  List.find?_some h

/-- When only the last element satisfies the predicate, `List.find?` returns
exactly it. -/
theorem find?_of_last {α : Type} (p : α → Bool) (t : List α) (a : α)
    (h : ∀ x ∈ t, p x = false) (ha : p a = true) :
    (t ++ [a]).find? p = some a := by
  induction t with
  | nil => simp [List.find?, ha]
  | cons x xs ih =>
    have hx := h x (by simp)
    simp only [List.cons_append, List.find?, hx]
    exact ih (fun y hy => h y (by simp [hy]))

/-- C1: for every Sequence and every context trajectory, if the i-th child
(0-indexed) is the first child to return Failure during an execution (fresh
tick plus any resumption ticks), then no child with index greater than i is
ever ticked during that execution and the overall result is Failure. -/
theorem sequence_first_failure_aborts {B : Type} (all : List (Node B))
    (bs : List B) (tr : STrace B) (res : Option Bool) (e : Nat × Outc B)
    (hexec : seqExecT all none bs = (tr, res))
    (hfind : tr.find? (fun p => p.2.isFailure) = some e) :
    res = some false ∧ ∀ p ∈ tr, p.1 ≤ e.1 := by
  obtain ⟨hSort0, hFT0⟩ := seqExecT_spec all bs
  rw [hexec] at hSort0 hFT0
  have hSort : IdxSorted tr := hSort0
  have hFT : FailTail tr res := hFT0
  have hmem : e ∈ tr := List.mem_of_find?_eq_some hfind
  have hfail := find?_pred hfind
  simp only [] at hfail
  cases res with
  | none =>
    have hnf : NoFail tr := hFT
    have h2 := hnf e hmem
    simp [hfail] at h2
  | some v =>
    cases v with
    | true =>
      have hnf : NoFail tr := hFT
      have h2 := hnf e hmem
      simp [hfail] at h2
    | false =>
      obtain ⟨t, j, hdec, hnf, hle⟩ := hFT
      have : tr.find? (fun p => p.2.isFailure) = some (j, Outc.failure) := by
        rw [hdec]
        exact find?_of_last _ t (j, Outc.failure) (fun x hx => hnf x hx) rfl
      rw [hfind] at this
      obtain rfl : e = (j, Outc.failure) := Option.some.inj this
      exact ⟨rfl, hle⟩

/-- Witness for C1 on the two-child sequence `[leafSucc, leafFail]`. -/
theorem sequence_first_failure_aborts_witness :
    seqExecT [leafSucc, leafFail] none [0]
        = ([(0, Outc.success), (1, Outc.failure)], some false) ∧
    ([((0 : Nat), Outc.success (B := Nat)), (1, Outc.failure)].find?
        (fun p => p.2.isFailure) = some (1, Outc.failure)) ∧
    (some false = some false ∧
      ∀ p ∈ [((0 : Nat), Outc.success (B := Nat)), (1, Outc.failure)],
        p.1 ≤ 1) := by
  have he : seqExecT [leafSucc, leafFail] none [0]
      = ([(0, Outc.success), (1, Outc.failure)], some false) := by
    simp [seqExecT, seqScanT, tick, leafSucc, leafFail]
  have hf : ([((0 : Nat), Outc.success (B := Nat)), (1, Outc.failure)].find?
      (fun p => p.2.isFailure) = some (1, Outc.failure)) := rfl
  exact ⟨he, hf, sequence_first_failure_aborts _ _ _ _ _ he hf⟩

/-- C2: a resumption tick of a Sequence ticks only the stored continuation
first (recorded at the anchor index); if it returns Success, scanning
continues with the children at indices strictly greater than the anchor
under fresh-tick rules; children at indices at most the anchor (other than
the continuation itself) are never ticked by that resumption node, as every
later trace entry has an index strictly greater than the anchor. -/
theorem sequenceResume_scans_after_anchor {B : Type} (all : List (Node B))
    (index : Nat) (resume : Node B) (b : B) :
    (∃ o t', (seqResumeT all index resume b).1 = (index, o) :: t' ∧
       entriesGE (index + 1) t') ∧
    tick (.sequenceResume all index resume) b
      = ((seqResumeT all index resume b).2).toNR all ∧
    (match tick resume b with
     | (.success, b') =>
       (seqResumeT all index resume b).1
         = (index, Outc.success) :: (seqScanT (all.drop (index + 1)) (index + 1) b').1 ∧
       (seqResumeT all index resume b).2
         = (seqScanT (all.drop (index + 1)) (index + 1) b').2
     | (.failure, b') =>
       (seqResumeT all index resume b).1 = [(index, Outc.failure)] ∧
       (seqResumeT all index resume b).2 = SeqRes.failure b'
     | (.running r', b') =>
       (seqResumeT all index resume b).1 = [(index, Outc.running r')] ∧
       (seqResumeT all index resume b).2 = SeqRes.running index r' b') := by
  refine ⟨(seqResumeT_spec all index resume b).1, tick_sequenceResume all index resume b, ?_⟩
  cases h : tick resume b with
  | mk res b' =>
    cases res <;> simp [seqResumeT, h]

/-- C3: `proceed` ticks the resumption node when the slot is occupied, else
the root; it returns `none` exactly when that tick returned `Running`
(storing the continuation in the slot), `some true` on `Success` and
`some false` on `Failure` (leaving the slot empty); after the call the slot
holds exactly the continuation just returned or is empty on a terminal
result, and `is_running` is true iff the slot is occupied. -/
theorem runner_proceed_spec {B : Type} (r : BehaviorRunner B) (b : B) :
    (match tick (r.currentTick.getD r.tree) b with
     | (.running n, b') => r.proceed b = (none, ⟨r.tree, some n⟩, b')
     | (.success, b') => r.proceed b = (some true, ⟨r.tree, none⟩, b')
     | (.failure, b') => r.proceed b = (some false, ⟨r.tree, none⟩, b')) ∧
    ((r.proceed b).2.1.isRunning = true ↔ (r.proceed b).1 = none) ∧
    (∀ q : BehaviorRunner B, q.isRunning = q.currentTick.isSome) := by
  cases r with
  | mk tree slot =>
    cases slot with
    | none =>
      cases h : tick tree b with
      | mk res b' =>
        cases res <;>
          simp [BehaviorRunner.proceed, BehaviorRunner.tickNode,
            BehaviorRunner.isRunning, Option.getD, h]
    | some bp =>
      cases h : tick bp b with
      | mk res b' =>
        cases res <;>
          simp [BehaviorRunner.proceed, BehaviorRunner.tickNode,
            BehaviorRunner.isRunning, Option.getD, h]

/-- Structure of the traced `ParallelSequence` loop: at most one tick per
child of the working set; an early `Failure` return records the failure as
the last tick performed with no failure before it; a completed loop ticks
every child exactly once and collects exactly the continuations of the
still-running children, in order. -/
theorem parSeqGoT_spec {B : Type} (sub : List (Node B)) (b : B) :
    (parSeqGoT sub b).1.length ≤ sub.length ∧
    (match (parSeqGoT sub b).2 with
     | .inl _ =>
       ∃ t, (parSeqGoT sub b).1 = t ++ [Outc.failure] ∧
         ∀ e ∈ t, e.isFailure = false
     | .inr (children, _) =>
       (parSeqGoT sub b).1.length = sub.length ∧
       children = (parSeqGoT sub b).1.filterMap Outc.contOf) := by
  induction sub generalizing b with
  | nil => simp [parSeqGoT]
  | cons c rest ih =>
    cases h : tick c b with
    | mk res b' =>
      cases res with
      | success =>
        obtain ⟨ihLen, ihM⟩ := ih b'
        simp only [parSeqGoT, h]
        constructor
        · simpa using Nat.succ_le_succ ihLen
        · cases hr : (parSeqGoT rest b').2 with
          | inl bf =>
            rw [hr] at ihM
            obtain ⟨t, hdec, hnf⟩ := ihM
            refine ⟨Outc.success :: t, by simp [hdec], ?_⟩
            intro e he
            simp only [List.mem_cons] at he
            rcases he with rfl | he
            · rfl
            · exact hnf e he
          | inr p =>
            cases p with
            | mk children bf =>
              rw [hr] at ihM
              simp [hr, ihM.1, ihM.2, Outc.contOf]
      | failure =>
        simp [parSeqGoT, h]
      | running rc =>
        obtain ⟨ihLen, ihM⟩ := ih b'
        simp only [parSeqGoT, h]
        cases hr : (parSeqGoT rest b').2 with
        | inl bf =>
          rw [hr] at ihM
          obtain ⟨t, hdec, hnf⟩ := ihM
          constructor
          · simpa using Nat.succ_le_succ ihLen
          · simp only [hr]
            refine ⟨Outc.running rc :: t, by simp [hdec], ?_⟩
            intro e he
            simp only [List.mem_cons] at he
            rcases he with rfl | he
            · rfl
            · exact hnf e he
        | inr p =>
          cases p with
          | mk children bf =>
            rw [hr] at ihM
            constructor
            · simpa using Nat.succ_le_succ ihLen
            · simp [hr, ihM.1, ihM.2, Outc.contOf]

/-- C4: a `ParallelSequence` tick ticks the current working set in index
order; a child `Failure` yields overall `Failure` immediately, with no child
after it ticked in that call; a child `Success` drops that child; when no
child remains running the result is `Success`, otherwise `Running` whose
continuation's working set is exactly the still-running children (their
continuations, in order), which is never longer than the old working set —
so across ticks the working set shrinks monotonically and terminal children
are never ticked again. -/
theorem parallelSequence_working_set {B : Type} (sub : List (Node B)) (b : B) :
    (parSeqGoT sub b).1.length ≤ sub.length ∧
    (match (parSeqGoT sub b).2 with
     | .inl b' =>
       tick (.parallelSequence sub) b = (.failure, b') ∧
       (∃ t, (parSeqGoT sub b).1 = t ++ [Outc.failure] ∧
         ∀ e ∈ t, e.isFailure = false)
     | .inr (children, b') =>
       (parSeqGoT sub b).1.length = sub.length ∧
       children = (parSeqGoT sub b).1.filterMap Outc.contOf ∧
       children.length ≤ sub.length ∧
       (children = [] → tick (.parallelSequence sub) b = (.success, b')) ∧
       (children ≠ [] →
         tick (.parallelSequence sub) b
           = (.running (.parallelSequence children), b'))) := by
  obtain ⟨hLen, hM⟩ := parSeqGoT_spec sub b
  refine ⟨hLen, ?_⟩
  cases hr : (parSeqGoT sub b).2 with
  | inl bf =>
    rw [hr] at hM
    exact ⟨by simp [tick, parSeqGo_eq_parSeqGoT, hr], hM⟩
  | inr p =>
    cases p with
    | mk children bf =>
      rw [hr] at hM
      refine ⟨hM.1, hM.2, ?_, ?_, ?_⟩
      · calc children.length = ((parSeqGoT sub b).1.filterMap Outc.contOf).length := by
              rw [hM.2]
          _ ≤ (parSeqGoT sub b).1.length := List.length_filterMap_le _ _
          _ ≤ sub.length := hLen
      · intro hnil
        simp [tick, parSeqGo_eq_parSeqGoT, hr, hnil]
      · intro hne
        simp [tick, parSeqGo_eq_parSeqGoT, hr, List.isEmpty_iff, hne]

/-- Per-tick accounting of `LimitedRepeated`: a `Success` result happens
exactly at the entry check (`completed` has reached `limit`, no child
ticked); a `Running` result increments the stored counter by exactly the
number of child-iteration terminations of this call; a `Failure` result is
impossible. -/
theorem lrTickT_spec {B : Type} (child : Node B) (limit completed : Nat)
    (resume : Option (Node B)) (b : B) :
    match (lrTickT child limit completed resume b).2.2 with
    | .success _ =>
      limit ≤ completed ∧ (lrTickT child limit completed resume b).2.1 = 0
    | .running c' _ _ =>
      c' = completed + (lrTickT child limit completed resume b).2.1 ∧
        completed < limit
    | .failure _ => False := by
  by_cases hl : completed ≥ limit
  · simp [lrTickT, hl]
  · cases resume with
    | none =>
      cases h : tick child b with
      | mk res b' => cases res <;> simp [lrTickT, hl, h] <;> omega
    | some r =>
      cases h : tick r b with
      | mk res b' =>
        cases res with
        | running r' => simp [lrTickT, hl, h]; omega
        | success =>
          cases h2 : tick child b' with
          | mk res2 b'' => cases res2 <;> simp [lrTickT, hl, h, h2] <;> omega
        | failure =>
          cases h2 : tick child b' with
          | mk res2 b'' => cases res2 <;> simp [lrTickT, hl, h, h2] <;> omega

/-- A `LimitedRepeated` tick returns `Success` iff the completed counter has
reached the limit at entry. -/
theorem lr_tick_success_iff {B : Type} (child : Node B) (limit : Nat)
    (completed : Nat) (resume : Option (Node B)) (b : B) :
    (tick (.limitedRepeated child limit completed resume) b).1
        = NodeResult.success ↔ limit ≤ completed := by
  rw [tick_limitedRepeated]
  have hspec := lrTickT_spec child limit completed resume b
  cases hr : (lrTickT child limit completed resume b).2.2 with
  | success bf =>
    rw [hr] at hspec
    simp [LRRes.toNR, hspec.1]
  | running c' r' bf =>
    rw [hr] at hspec
    simp [LRRes.toNR]
    omega
  | failure bf =>
    rw [hr] at hspec
    exact absurd hspec (by simp)

/-- A `LimitedRepeated` tick never returns `Failure`. -/
theorem lr_tick_never_failure {B : Type} (child : Node B) (limit : Nat)
    (completed : Nat) (resume : Option (Node B)) (b : B) :
    (tick (.limitedRepeated child limit completed resume) b).1
        ≠ NodeResult.failure := by
  rw [tick_limitedRepeated]
  have hspec := lrTickT_spec child limit completed resume b
  cases hr : (lrTickT child limit completed resume b).2.2 with
  | success bf => simp [LRRes.toNR]
  | running c' r' bf => simp [LRRes.toNR]
  | failure bf =>
    rw [hr] at hspec
    exact absurd hspec (by simp)

/-- Execution invariant of `LimitedRepeated`: the outcome is never
`some false`, and a `some true` outcome implies the initial counter plus the
terminations of the execution have reached the limit. -/
theorem lrExecT_invariant {B : Type} (child : Node B) (limit : Nat) :
    ∀ (bs : List B) (completed : Nat) (resume : Option (Node B)),
      (lrExecT child limit (completed, resume) bs).2 ≠ some false ∧
      ((lrExecT child limit (completed, resume) bs).2 = some true →
        limit ≤ completed + (lrExecT child limit (completed, resume) bs).1) := by
  intro bs
  induction bs with
  | nil => intro completed resume; simp [lrExecT]
  | cons b bs ih =>
    intro completed resume
    have hspec := lrTickT_spec child limit completed resume b
    cases hstep : lrTickT child limit completed resume b with
    | mk tk p =>
      cases p with
      | mk terms r =>
        rw [hstep] at hspec
        cases r with
        | success bf =>
          simp only [lrExecT, hstep]
          simp only [] at hspec
          refine ⟨by simp, fun _ => ?_⟩
          omega
        | running c' r' bf =>
          obtain ⟨ih1, ih2⟩ := ih c' r'
          simp only [lrExecT, hstep]
          simp only [] at hspec
          refine ⟨ih1, fun hres => ?_⟩
          have := ih2 hres
          omega
        | failure bf => exact absurd hspec (by simp)

/-- C5 (amended): a `LimitedRepeated` with limit `L` returns `Success` only
after its child has terminated (Success or Failure counted identically,
summed across fresh and resumed iterations) at least `L` times, and the
node never returns `Failure`. -/
theorem limitedRepeated_success_needs_limit {B : Type} (child : Node B)
    (limit : Nat) (bs : List B) (terms : Nat) (res : Option Bool)
    (h : lrExecT child limit (0, none) bs = (terms, res)) :
    res ≠ some false ∧ (res = some true → limit ≤ terms) ∧
    ∀ (completed : Nat) (resume : Option (Node B)) (b : B),
      (tick (.limitedRepeated child limit completed resume) b).1
        ≠ NodeResult.failure := by
  obtain ⟨h1, h2⟩ := lrExecT_invariant child limit bs 0 none
  rw [h] at h1 h2
  refine ⟨h1, fun hres => ?_, fun completed resume b =>
    lr_tick_never_failure child limit completed resume b⟩
  have := h2 hres
  simpa using this

/-- Counterexample to C5 as stated: with limit 1, a resumed iteration and a
fresh iteration can both terminate inside one tick, so `Success` is reported
only after the child terminated 2 times, not exactly 1. -/
theorem limitedRepeated_can_overshoot :
    lrExecT stepThenSucc 1 (0, none) [0, 1, 0] = (2, some true) ∧
    (2 : Nat) ≠ 1 := by
  constructor
  · simp [lrExecT, lrTickT, tick, stepThenSucc, leafSucc]
  · decide

/-- Witness for C5 (amended) on the overshooting execution. -/
theorem limitedRepeated_success_needs_limit_witness :
    lrExecT stepThenSucc 1 (0, none) [0, 1, 0] = (2, some true) ∧
    (some true ≠ some false ∧ (some true = some true → 1 ≤ 2)) := by
  have h : lrExecT stepThenSucc 1 (0, none) [0, 1, 0] = (2, some true) := by
    simp [lrExecT, lrTickT, tick, stepThenSucc, leafSucc]
  have hc := limitedRepeated_success_needs_limit stepThenSucc 1 [0, 1, 0] 2
    (some true) h
  exact ⟨h, hc.1, hc.2.1⟩

/-- C10: `LimitedRepeated` compares its counter to the limit only at the
entry of a tick: when the resumed iteration terminates during a tick (even
when the counter thereby reaches the limit), a fresh child instance is still
ticked within that same call (the resulting context is the context after
that fresh tick) and the node returns `Running`; `Success` is returned
exactly by a tick whose entry check sees the counter at or above the
limit. -/
theorem limitedRepeated_checks_limit_at_entry {B : Type} (child : Node B)
    (limit completed : Nat) (r : Node B) (b : B)
    (h1 : completed < limit)
    (h2 : (tick r b).1.isTerminal = true)
    (_h3 : completed + 1 = limit) :
    (lrTickT child limit completed (some r) b).1 = 2 ∧
    (∃ c' r' bf, (lrTickT child limit completed (some r) b).2.2
        = LRRes.running c' r' bf ∧ bf = (tick child (tick r b).2).2) ∧
    (∀ (completed' : Nat) (resume' : Option (Node B)) (b' : B),
      (tick (.limitedRepeated child limit completed' resume') b').1
          = NodeResult.success ↔ limit ≤ completed') := by
  have hl : ¬ completed ≥ limit := Nat.not_le.mpr h1
  refine ⟨?_, ?_, fun completed' resume' b' =>
    lr_tick_success_iff child limit completed' resume' b'⟩ <;>
  · cases h : tick r b with
    | mk res bm =>
      rw [h] at h2
      cases res with
      | running r' => simp [NodeResult.isTerminal] at h2
      | success =>
        cases h4 : tick child bm with
        | mk res2 b'' => cases res2 <;> simp [lrTickT, hl, h, h4]
      | failure =>
        cases h4 : tick child bm with
        | mk res2 b'' => cases res2 <;> simp [lrTickT, hl, h, h4]

/-- Per-tick accounting of `RepeatedUntilFailure`: a `Success` result records
at least one child `Failure`, a `Running` result records none, and a
`Failure` result is impossible. -/
theorem rufTickT_spec {B : Type} (child : Node B) (resume : Option (Node B))
    (b : B) :
    match (rufTickT child resume b).2 with
    | .success _ => 1 ≤ countFails (rufTickT child resume b).1
    | .running _ _ => countFails (rufTickT child resume b).1 = 0
    | .failure _ => False := by
  cases resume with
  | none =>
    cases h : tick child b with
    | mk res b' => cases res <;> simp [rufTickT, h, countFails]
  | some r =>
    cases h : tick r b with
    | mk res b' =>
      cases res with
      | running r' => simp [rufTickT, h, countFails]
      | failure => simp [rufTickT, h, countFails]
      | success =>
        cases h2 : tick child b' with
        | mk res2 b'' => cases res2 <;> simp [rufTickT, h, h2, countFails]

/-- Execution invariant of `RepeatedUntilFailure`: the outcome is
`some true` iff some child tick reported `Failure`, and is never
`some false`. -/
theorem rufExecT_invariant {B : Type} (child : Node B) :
    ∀ (bs : List B) (resume : Option (Node B)),
      ((rufExecT child resume bs).2 = some true ↔
        1 ≤ (rufExecT child resume bs).1) ∧
      (rufExecT child resume bs).2 ≠ some false := by
  intro bs
  induction bs with
  | nil => intro resume; simp [rufExecT]
  | cons b bs ih =>
    intro resume
    have hspec := rufTickT_spec child resume b
    cases hstep : rufTickT child resume b with
    | mk t r =>
      rw [hstep] at hspec
      cases r with
      | success bf =>
        simp only [rufExecT, hstep]
        simp only [] at hspec
        constructor
        · simp only [true_iff]
          omega
        · simp
      | running r' bf =>
        obtain ⟨ih1, ih2⟩ := ih r'
        simp only [rufExecT, hstep]
        simp only [] at hspec
        refine ⟨?_, ih2⟩
        rw [hspec]
        simpa using ih1
      | failure bf => exact absurd hspec (by simp)

/-- C7 (amended): over any execution a `RepeatedUntilFailure` reports overall
Success iff the child has reported `Failure` at least once, and never
reports `Failure`. Per tick: a fresh child `Success` yields `Running` with
no resumption; a fresh child `Running` anchors the continuation; a child
`Failure` converts to `Success`; and when a resumed child tick returns
`Success`, a fresh iteration is ticked within that same call, behaving like
a fresh tick on the updated context. -/
theorem repeatedUntilFailure_success_iff_child_failed {B : Type}
    (child : Node B) (bs : List B) (n : Nat) (res : Option Bool)
    (h : rufExecT child none bs = (n, res)) :
    ((res = some true ↔ 1 ≤ n) ∧ res ≠ some false) ∧
    (∀ (resume : Option (Node B)) (b : B),
      tick (.repeatedUntilFailure resume child) b
        = ((rufTickT child resume b).2).toNR child) ∧
    (∀ (b b' : B), tick child b = (.success, b') →
      rufTickT child none b = ([Status.success], RUFRes.running none b')) ∧
    (∀ (b b' : B) (r' : Node B), tick child b = (.running r', b') →
      rufTickT child none b = ([Status.running], RUFRes.running (some r') b')) ∧
    (∀ (b b' : B), tick child b = (.failure, b') →
      rufTickT child none b = ([Status.failure], RUFRes.success b')) ∧
    (∀ (r : Node B) (b b' : B), tick r b = (.success, b') →
      rufTickT child (some r) b
        = (Status.success :: (rufTickT child none b').1,
           (rufTickT child none b').2)) ∧
    (∀ (r : Node B) (b b' : B) (r' : Node B), tick r b = (.running r', b') →
      rufTickT child (some r) b
        = ([Status.running], RUFRes.running (some r') b')) ∧
    (∀ (r : Node B) (b b' : B), tick r b = (.failure, b') →
      rufTickT child (some r) b = ([Status.failure], RUFRes.success b')) := by
  obtain ⟨hiff, hnf⟩ := rufExecT_invariant child bs none
  rw [h] at hiff hnf
  refine ⟨⟨hiff, hnf⟩,
    fun resume b => tick_repeatedUntilFailure child resume b,
    fun b b' hc => by simp [rufTickT, hc],
    fun b b' r' hc => by simp [rufTickT, hc],
    fun b b' hc => by simp [rufTickT, hc],
    fun r b b' hc => ?_,
    fun r b b' r' hc => by simp [rufTickT, hc],
    fun r b b' hc => by simp [rufTickT, hc]⟩
  cases h2 : tick child b' with
  | mk res2 b'' => cases res2 <;> simp [rufTickT, hc, h2]

/-- Counterexample to C7 as stated: a resumed child tick returning `Success`
does not make the node return `Running` with no resumption — the node ticks
a fresh child in the same call, and when that fresh tick fails the node
returns `Success`. -/
theorem ruf_resumed_success_ticks_again :
    (rufTickT stepThenFail (some leafSucc) 1).1
        = [Status.success, Status.failure] ∧
    (rufTickT stepThenFail (some leafSucc) 1).2 = RUFRes.success 1 ∧
    ¬ ∃ b', (rufTickT stepThenFail (some leafSucc) 1).2
        = RUFRes.running none b' := by
  refine ⟨?_, ?_, ?_⟩ <;>
    simp [rufTickT, tick, stepThenFail, leafSucc]

/-- Witness for C7 (amended) on a child that fails immediately. -/
theorem repeatedUntilFailure_success_iff_child_failed_witness :
    rufExecT leafFail none [0] = (1, some true) ∧
    ((some true = some true ↔ 1 ≤ 1) ∧ some true ≠ some false) := by
  have h : rufExecT leafFail none [0] = (1, some true) := by
    simp [rufExecT, rufTickT, tick, leafFail, countFails]
  exact ⟨h, (repeatedUntilFailure_success_iff_child_failed leafFail [0] 1
    (some true) h).1⟩

/-- C8: a `Repeated` node, in any resumption state and on any context,
always returns `Running` with some continuation; it never returns `Success`
or `Failure`. -/
theorem repeated_always_running {B : Type} (resume : Option (Node B))
    (child : Node B) (b : B) :
    ∃ n b', tick (.repeated resume child) b = (NodeResult.running n, b') := by
  cases resume with
  | none =>
    cases h : tick child b with
    | mk res b' =>
      cases res with
      | running r' => exact ⟨.repeated (some r') child, b', by simp [tick, h]⟩
      | success => exact ⟨.repeated none child, b', by simp [tick, h]⟩
      | failure => exact ⟨.repeated none child, b', by simp [tick, h]⟩
  | some r =>
    cases h : tick r b with
    | mk res b' =>
      cases res with
      | running r' => exact ⟨.repeated (some r') child, b', by simp [tick, h]⟩
      | success =>
        cases h2 : tick child b' with
        | mk res2 b'' =>
          cases res2 with
          | running r' =>
            exact ⟨.repeated (some r') child, b'', by simp [tick, h, h2]⟩
          | success => exact ⟨.repeated none child, b'', by simp [tick, h, h2]⟩
          | failure => exact ⟨.repeated none child, b'', by simp [tick, h, h2]⟩
      | failure =>
        cases h2 : tick child b' with
        | mk res2 b'' =>
          cases res2 with
          | running r' =>
            exact ⟨.repeated (some r') child, b'', by simp [tick, h, h2]⟩
          | success => exact ⟨.repeated none child, b'', by simp [tick, h, h2]⟩
          | failure => exact ⟨.repeated none child, b'', by simp [tick, h, h2]⟩

/-- C9: degenerate constructions are total and deterministic: an empty
Sequence succeeds on its first tick, an empty Selector fails, an empty
Parallel-Sequence succeeds, an empty Parallel-Selector fails, and a
`LimitedRepeated` constructed with limit zero succeeds on its very first
tick without ticking its child (zero child ticks); every tick returns one
of the three defined outcomes. -/
theorem degenerate_composites_total {B : Type} (b : B) (child : Node B) :
    tick (Node.sequence ([] : List (Node B))) b = (.success, b) ∧
    tick (Node.selector ([] : List (Node B))) b = (.failure, b) ∧
    tick (Node.parallelSequence ([] : List (Node B))) b = (.success, b) ∧
    tick (Node.parallelSelector ([] : List (Node B))) b = (.failure, b) ∧
    tick (Node.limitedRepeated child 0 0 none) b = (.success, b) ∧
    (lrTickT child 0 0 none b).1 = 0 ∧
    ∀ n : Node B, (tick n b).1 = NodeResult.success ∨
      (tick n b).1 = NodeResult.failure ∨
      ∃ c, (tick n b).1 = NodeResult.running c := by
  refine ⟨by simp [tick, seqScan], by simp [tick, selScan],
    by simp [tick, parSeqGo], by simp [tick, parSelGo],
    by simp [tick], by simp [lrTickT], ?_⟩
  intro n
  cases hr : (tick n b).1 with
  | running c => exact Or.inr (Or.inr ⟨c, rfl⟩)
  | success => exact Or.inl rfl
  | failure => exact Or.inr (Or.inl rfl)

/-- Counterexample to C6 as stated: after exactly 3 `proceed` calls the log
is `[1, 1, 1]`, but the third call returns `none`, not `some true`. -/
theorem scenario_c_third_tick_still_running :
    c6Step3.2.2 = [1, 1, 1] ∧ c6Step3.1 = none ∧ c6Step3.1 ≠ some true := by
  refine ⟨?_, ?_, ?_⟩ <;>
    simp [c6Step3, c6Step2, c6Step1, c6Tree, BehaviorRunner.new,
      BehaviorRunner.proceed, BehaviorRunner.tickNode, tick, pushOne]

/-- C6 (amended): driving `LimitedRepeated(limit 3)` over a child that
pushes `1` and succeeds, the first three `proceed` calls return `none` with
the log reaching `[1, 1, 1]` after the third; the fourth call returns
`some true` without ticking the child again (log unchanged). -/
theorem scenario_c_needs_four_ticks :
    c6Step3.2.2 = [1, 1, 1] ∧ c6Step3.1 = none ∧
    c6Step4.1 = some true ∧ c6Step4.2.2 = [1, 1, 1] := by
  refine ⟨?_, ?_, ?_, ?_⟩ <;>
    simp [c6Step4, c6Step3, c6Step2, c6Step1, c6Tree, BehaviorRunner.new,
      BehaviorRunner.proceed, BehaviorRunner.tickNode, tick, pushOne]

/-- Witness for C10 at an immediately-succeeding continuation and child with
limit 1. -/
theorem limitedRepeated_checks_limit_at_entry_witness :
    ((0 : Nat) < 1 ∧ (tick leafSucc 0).1.isTerminal = true ∧ 0 + 1 = 1) ∧
    (lrTickT leafSucc 1 0 (some leafSucc) 0).1 = 2 := by
  have h2 : (tick leafSucc 0).1.isTerminal = true := by
    simp [tick, leafSucc, NodeResult.isTerminal]
  have hc := limitedRepeated_checks_limit_at_entry leafSucc 1 0 leafSucc 0
    (by decide) h2 (by decide)
  exact ⟨⟨by decide, h2, by decide⟩, hc.1⟩

end SimpleBT
